import Mathlib

/-!
Verification development for the Directus item service
(`api/src/services/items.ts`) and the Oracle 12 JSON dialect helper
(`api/src/database/helpers/json/dialects/oracle_12.ts`).

The TypeScript code is shallowly embedded: JS values become the inductive
`Value` (with JS truthiness), JS objects become association lists
(`Item := List (String × Value)`), and the external collaborators
(schema inspector, payload service, authorization service, AST pipeline,
storage key generation) become an explicit `Env` of functions, since the
spec treats them as black boxes.  Each mutating operation is translated
statement-by-statement from the source and returns, besides its
`Except`-style outcome, the ordered list of observable events (gate calls
and SQL statements) it produced, plus the list of events whose effects
survive the transaction (`committed`): a transaction that ends in an error
rolls its statements back, so `committed = []` on error.
-/

/-- JS runtime values, restricted to the shapes the item service handles. -/
inductive Value
  | null
  | undefined
  | str (s : String)
  | num (n : Int)
  | bool (b : Bool)
deriving DecidableEq, Repr

/-- JS truthiness (`if (x)`).  `undefined`, `null`, `0`, `''` and `false`
are falsy, everything else modelled here is truthy. -/
def Value.truthy : Value → Bool
  | .null => false
  | .undefined => false
  | .str s => !s.isEmpty
  | .num n => n != 0
  | .bool b => b

/-- A JS object: ordered association list from property name to value. -/
abbrev Item := List (String × Value)

/-- Property read `obj[k]` returning `none` when the property is absent. -/
def jsGet {α : Type} (l : List (String × α)) (k : String) : Option α :=
  (l.find? (fun p => p.1 == k)).map Prod.snd

/-- Property read `obj[k]`: an absent property reads as `undefined`. -/
def jsLookup (it : Item) (k : String) : Value :=
  (jsGet it k).getD .undefined

/-- JS property write `obj[k] = v` (also the semantics of a spread
`{...obj, k: v}`): an existing key keeps its position and is overwritten,
a new key is appended. -/
def jsObjSet {α : Type} (l : List (String × α)) (k : String) (v : α) :
    List (String × α) :=
  if l.any (fun p => p.1 == k) then
    l.map (fun p => if p.1 == k then (k, v) else p)
  else l ++ [(k, v)]

/-- lodash `pick(obj, keys)`: keep only the listed keys, in list order,
skipping keys the object does not have. -/
def jsPick (it : Item) (ks : List String) : Item :=
  ks.filterMap (fun k => (jsGet it k).map (fun v => (k, v)))

/-- The `Accountability` context (`{ user, role, admin?, ip, userAgent } | null`;
the whole context is `Option Accountability`).  `admin` is an optional
boolean, so `admin !== true` and `admin !== false` are distinct guards. -/
structure Accountability where
  user : Value := .null
  ip : Value := .null
  userAgent : Value := .null
  admin : Option Bool := none
deriving DecidableEq, Repr

/-- Error kinds crossing the service boundary. -/
inductive Err
  | forbidden (msg : String)
  | invalidPayload (msg : String)
  | typeError (msg : String)
  | generic (msg : String)
deriving DecidableEq, Repr

/-- Observable events of one service call, in program order. -/
inductive Event
  | authProcessValues (phase collection : String)
  | checkAccess (action collection : String)
  | insertStmt (collection : String) (rows : List Item)
  | updateStmt (collection : String) (row : Item) (keys : List Value)
  | deleteStmt (collection : String) (keys : List Value)
  | activityInsert (collection : String) (keys : List Value)
deriving DecidableEq, Repr

/-- Events of the authorization gate (`processValues` / `checkAccess`). -/
def isGateEvent : Event → Bool
  | .authProcessValues _ _ => true
  | .checkAccess _ _ => true
  | _ => false

/-- The underlying insert/update/delete statements against the target
collection (the activity-log insert is kept separate). -/
def isMutationStmt : Event → Bool
  | .insertStmt _ _ => true
  | .updateStmt _ _ _ => true
  | .deleteStmt _ _ => true
  | _ => false

/-- Statements whose effects persist when the transaction commits. -/
def isWriteEvent : Event → Bool
  | .insertStmt _ _ => true
  | .updateStmt _ _ _ => true
  | .deleteStmt _ _ => true
  | .activityInsert _ _ => true
  | _ => false

/-- `true` iff every mutation statement in the trace is preceded by some
authorization-gate event (scanning left to right, a gate event is met
before any mutation statement; a trace with no mutation statement passes). -/
def gateFirst : List Event → Bool
  | [] => true
  | e :: tr =>
    if isMutationStmt e then false
    else if isGateEvent e then true
    else gateFirst tr

/-- A filter condition: either the `_in` key-set constraint the service
builds, or an arbitrary caller-written operator/value condition. -/
inductive Cond
  | inKeys (keys : List Value)
  | cond (op : String) (v : Value)
deriving DecidableEq, Repr

/-- The caller-facing query object (only the parts the service touches). -/
structure Query where
  filter : Option (List (String × Cond)) := none
  limit : Option Int := none
deriving DecidableEq, Repr

/-- Column metadata as returned by the schema inspector's `columnInfo`. -/
structure Column where
  name : String
  raw : Value := .null
deriving DecidableEq, Repr

/-- Sequential `mapM` over `Except`, the effect order of awaiting each
collaborator call in turn. -/
def mapME {α β : Type} (f : α → Except Err β) : List α → Except Err (List β)
  | [] => .ok []
  | a :: l =>
    match f a with
    | .error e => .error e
    | .ok b =>
      match mapME f l with
      | .error e => .error e
      | .ok bs => .ok (b :: bs)

/-- The external collaborators consumed by the item service, per the spec's
interface boundary (schema inspector, payload service, authorization
service, AST pipeline, storage).  Each is an arbitrary function, possibly
failing. -/
structure Env where
  primary : String → String
  columns : String → List String
  columnInfo : String → List Column
  defaultOf : Column → Value
  procM2O : Item → Except Err Item
  procValues : String → Item → Except Err Item
  authProcValues : String → String → Item → Except Err Item
  checkAcc : String → String → Sum Value (List Value) → Except Err Unit
  genKey : Nat → Value
  procO2M : Item → Except Err Unit
  execQuery : String → Query → List Item
  firstRow : String → Option Item

/-- Result of one mutating operation: full event trace, the events whose
effects were committed (empty when the enclosing transaction rolled back),
and the returned value or error. -/
structure OpM (α : Type) where
  trace : List Event
  committed : List Event
  out : Except Err α
deriving Repr

/-- `this.accountability && this.accountability.admin !== true`
(the guard used by `create` and `update`). -/
def gateActiveCU (acc : Option Accountability) : Bool :=
  match acc with
  | some a => a.admin != some true
  | none => false

/-- `this.accountability && this.accountability.admin !== false`
(the guard used by `delete`). -/
def gateActiveDel (acc : Option Accountability) : Bool :=
  match acc with
  | some a => a.admin != some false
  | none => false

/-- `Array.isArray(x) ? x : [x]`. -/
def sumToList : Sum Item (List Item) → List Item
  | .inl d => [d]
  | .inr ds => ds

/-- `Array.isArray(key) ? key : [key]`. -/
def keyList : Sum Value (List Value) → List Value
  | .inl k => [k]
  | .inr ks => ks

/-- Truthiness of the optional `key` argument of `update`
(`undefined` is falsy, an array is truthy, a scalar by JS truthiness). -/
def keyTruthy : Option (Sum Value (List Value)) → Bool
  | none => false
  | some (.inl v) => v.truthy
  | some (.inr _) => true

/-- Transaction body of `delete` (`items.ts` lines 257-272): the delete
statement by primary-key set, then the activity insert when an
accountability context exists. -/
def deleteTrx (collection : String) (acc : Option Accountability)
    (key : Sum Value (List Value)) (keys : List Value) (preTr : List Event) :
    OpM (Sum Value (List Value)) :=
  let tr := preTr ++ [Event.deleteStmt collection keys]
      ++ (if acc.isSome then [Event.activityInsert collection keys] else [])
  { trace := tr, committed := tr.filter isWriteEvent, out := .ok key }

/-- `delete(key | keys)` (`items.ts` lines 242-275).  The gate guard is
`this.accountability && this.accountability.admin !== false`; `checkAccess`
receives the original `key` argument. -/
def delete (env : Env) (collection : String) (acc : Option Accountability)
    (key : Sum Value (List Value)) : OpM (Sum Value (List Value)) :=
  let keys := keyList key
  let _primaryKeyField := env.primary collection
  if gateActiveDel acc then
    match env.checkAcc "delete" collection key with
    | .error e =>
      { trace := [Event.checkAccess "delete" collection], committed := [],
        out := .error e }
    | .ok _ =>
      deleteTrx collection acc key keys [Event.checkAccess "delete" collection]
  else
    deleteTrx collection acc key keys []

/-- `create(data | data[])` (`items.ts` lines 37-108), translated step by
step.  Note the source computes `payloadsWithoutAliases` (the rows later
handed to `insert`) from the payloads *before* the authorization gate runs,
and assigns the gate's output back to `payloads` only; the insert uses
`payloadsWithoutAliases`.  Generated primary keys are modelled as
`env.genKey i` for the `i`-th inserted row.  This function is the
transaction callback (`items.ts` lines 46-105). -/
def createTrx (env : Env) (collection : String) (acc : Option Accountability)
    (primaryKeyField : String) (columns : List String) (payloads : List Item) :
    List Event × Except Err (List Value) :=
  match mapME env.procM2O payloads with
  | .error e => ([], .error e)
  | .ok payloads1 =>
    match mapME (env.procValues "create") (payloads1.map (fun p => jsPick p columns)) with
    | .error e => ([], .error e)
    | .ok pwa1 =>
      match
        (if gateActiveCU acc then
          mapME (env.authProcValues "create" collection) payloads1
        else .ok payloads1) with
      | .error e =>
        ((if gateActiveCU acc then [Event.authProcessValues "create" collection]
          else []),
         .error e)
      | .ok payloads2 =>
        match mapME env.procO2M
            (List.zipWith (fun p k => jsObjSet p primaryKeyField k) payloads2
              ((List.range pwa1.length).map env.genKey)) with
        | .error e =>
          ((if gateActiveCU acc then [Event.authProcessValues "create" collection]
            else [])
            ++ [Event.insertStmt collection pwa1]
            ++ (if acc.isSome then
                  [Event.activityInsert collection
                    ((List.range pwa1.length).map env.genKey)]
                else []),
           .error e)
        | .ok _ =>
          ((if gateActiveCU acc then [Event.authProcessValues "create" collection]
            else [])
            ++ [Event.insertStmt collection pwa1]
            ++ (if acc.isSome then
                  [Event.activityInsert collection
                    ((List.range pwa1.length).map env.genKey)]
                else []),
           .ok ((List.range pwa1.length).map env.genKey))

/-- `create(data | data[])`, assembled from `createTrx`. -/
def create (env : Env) (collection : String) (acc : Option Accountability)
    (data : Sum Item (List Item)) : OpM (Sum Value (List Value)) :=
  match createTrx env collection acc (env.primary collection)
      (env.columns collection) (sumToList data) with
  | (tr, .error e) => { trace := tr, committed := [], out := .error e }
  | (tr, .ok ks) =>
    { trace := tr,
      committed := tr.filter isWriteEvent,
      out :=
        .ok (match data with
             | .inl _ => .inl (ks.headD Value.undefined)
             | .inr _ => .inr ks) }

/-- Transaction body of single-payload `update` (`items.ts` lines 197-216):
foreign-key pre-resolution, update-phase value transformation, stripping of
non-column fields, the update statement keyed on the primary-key set, then
child (one-to-many) writes. -/
def updateOneTrx (env : Env) (collection : String)
    (payload : Item) (key : Sum Value (List Value)) (keys : List Value)
    (columns : List String) (preTr : List Event) :
    OpM (Sum Value (List Value)) :=
  match env.procM2O payload with
  | .error e => { trace := preTr, committed := [], out := .error e }
  | .ok p1 =>
    match env.procValues "update" p1 with
    | .error e => { trace := preTr, committed := [], out := .error e }
    | .ok p2 =>
      match env.procO2M p2 with
      | .error e =>
        { trace := preTr ++ [Event.updateStmt collection (jsPick p2 columns) keys],
          committed := [], out := .error e }
      | .ok _ =>
        { trace := preTr ++ [Event.updateStmt collection (jsPick p2 columns) keys],
          committed :=
            (preTr ++ [Event.updateStmt collection (jsPick p2 columns) keys]).filter
              isWriteEvent,
          out := .ok key }

/-- Single-payload mode of `update` (`items.ts` lines 180-219, the
`data && key` branch): with a non-admin accountability, `checkAccess` on the
key set and then validation-phase gate processing, both before the
transaction; returns the `key` argument unchanged. -/
def updateOne (env : Env) (collection : String) (acc : Option Accountability)
    (data : Item) (key : Sum Value (List Value)) :
    OpM (Sum Value (List Value)) :=
  if gateActiveCU acc then
    match env.checkAcc "update" collection (.inr (keyList key)) with
    | .error e =>
      { trace := [Event.checkAccess "update" collection], committed := [],
        out := .error e }
    | .ok _ =>
      match env.authProcValues "validate" collection data with
      | .error e =>
        { trace := [Event.checkAccess "update" collection,
                    Event.authProcessValues "validate" collection],
          committed := [], out := .error e }
      | .ok payload1 =>
        updateOneTrx env collection payload1 key (keyList key)
          (env.columns collection)
          [Event.checkAccess "update" collection,
           Event.authProcessValues "validate" collection]
  else
    updateOneTrx env collection data key (keyList key) (env.columns collection) []

/-- The batch loop of `update` (`items.ts` lines 229-236): each element must
carry its own primary-key value (`if (!key) throw InvalidPayloadException`),
then the per-item update is delegated (the source re-enters `update(payload,
key)` which, its key being truthy, runs the single-payload mode embedded
here as `updateOne`).  `updateBatchStep` combines one element's result with
the remainder of the loop: an error anywhere aborts the loop and propagates. -/
def updateBatchStep (r : OpM (Sum Value (List Value))) (key : Value)
    (rest : List Event × Except Err (List Value)) :
    List Event × Except Err (List Value) :=
  match r.out with
  | .error e => (r.trace, .error e)
  | .ok _ =>
    (r.trace ++ rest.1,
     match rest.2 with
     | .ok ks => .ok (key :: ks)
     | .error e => .error e)

/-- The iteration of the batch loop over the payload array. -/
def updateBatchGo (env : Env) (collection : String) (acc : Option Accountability)
    (primaryKeyField : String) :
    List Item → List Event × Except Err (List Value)
  | [] => ([], .ok [])
  | single :: rest =>
    if (jsLookup single primaryKeyField).truthy then
      updateBatchStep
        (updateOne env collection acc single
          (.inl (jsLookup single primaryKeyField)))
        (jsLookup single primaryKeyField)
        (updateBatchGo env collection acc primaryKeyField rest)
    else
      ([], .error (.invalidPayload "Primary key is missing in update payload."))

/-- Batch mode of `update` (`items.ts` lines 221-239): all per-element
updates nested inside one outer transaction, so any error rolls every
element's writes back (`committed = []`). -/
def updateBatch (env : Env) (collection : String) (acc : Option Accountability)
    (items : List Item) : OpM (Sum Value (List Value)) :=
  { trace := (updateBatchGo env collection acc (env.primary collection) items).1,
    committed :=
      match (updateBatchGo env collection acc (env.primary collection) items).2 with
      | .ok _ =>
        (updateBatchGo env collection acc (env.primary collection) items).1.filter
          isWriteEvent
      | .error _ => [],
    out :=
      match (updateBatchGo env collection acc (env.primary collection) items).2 with
      | .ok ks => .ok (.inr ks)
      | .error e => .error e }

/-- `update` dispatcher (`items.ts` lines 168-240): `if (data && key)` takes
the single-payload mode (an object/array `data` is always truthy, so the
test is the key's truthiness), otherwise the batch mode iterates `data` as
an array.  The two ill-typed combinations the TS overloads exclude (array
data with a truthy key; non-array data in the batch branch, where `for..of`
raises a TypeError) are mapped to a `typeError` outcome. -/
def update (env : Env) (collection : String) (acc : Option Accountability)
    (data : Sum Item (List Item)) (key : Option (Sum Value (List Value))) :
    OpM (Sum Value (List Value)) :=
  if keyTruthy key then
    match data with
    | .inl d =>
      updateOne env collection acc d
        (match key with
         | some k => k
         | none => .inl Value.undefined)
    | .inr _ =>
      { trace := [], committed := [],
        out := .error (.typeError "array payload with key argument") }
  else
    match data with
    | .inl _ =>
      { trace := [], committed := [],
        out := .error (.typeError "data is not iterable") }
    | .inr items => updateBatch env collection acc items

/-- The delegation performed by `upsertSingleton` (`items.ts` lines
298-313): probe `select(primaryKeyField).from(collection).limit(1).first()`;
when a row exists, delegate to `update(data, record.id)` — reading the
property named `id` from a record that only carries the primary-key field —
otherwise delegate to `create(data)`. -/
inductive UpsertCall
  | toUpdate (data : Item) (key : Value)
  | toCreate (data : Item)
deriving DecidableEq, Repr

/-- Which call `upsertSingleton` delegates to, and with which key. -/
def upsertDelegation (env : Env) (collection : String) (data : Item) :
    UpsertCall :=
  let primaryKeyField := env.primary collection
  match env.firstRow collection with
  | some row =>
    let record := jsPick row [primaryKeyField]
    .toUpdate data (jsLookup record "id")
  | none => .toCreate data

/-- `upsertSingleton(data)` (`items.ts` lines 298-313). -/
def upsertSingleton (env : Env) (collection : String)
    (acc : Option Accountability) (data : Item) :
    OpM (Sum Value (List Value)) :=
  match upsertDelegation env collection data with
  | .toUpdate d k => update env collection acc (.inl d) (some (.inl k))
  | .toCreate d => create env collection acc (.inl d)

/-- The query `readByKey` executes (`items.ts` lines 138-146): the caller's
query with its filter spread first and the primary-key field then set to
`{_in: keys}`. -/
def queryWithFilter (q : Query) (primaryKeyField : String) (keys : List Value) :
    Query :=
  { q with
    filter := some (jsObjSet (q.filter.getD []) primaryKeyField (Cond.inKeys keys)) }

/-- `readByKey(key | keys, query)` (`items.ts` lines 126-166): the AST
build, authorization rewrite, execution and read-phase value processing are
the collaborator `env.execQuery`; the result shape follows the input shape,
`processedRecords[0]` being `undefined` (`none`) when nothing matched. -/
def readByKey (env : Env) (collection : String)
    (key : Sum Value (List Value)) (query : Query) :
    Sum (Option Item) (List Item) :=
  let primaryKeyField := env.primary collection
  let keys := keyList key
  let q := queryWithFilter query primaryKeyField keys
  let processedRecords := env.execQuery collection q
  match key with
  | .inr _ => .inr processedRecords
  | .inl _ => .inl processedRecords.head?

/-- `query.limit = 1` as forced by `readSingleton` (`items.ts` line 279). -/
def setLimitOne (q : Query) : Query := { q with limit := some 1 }

/-- The default Item `readSingleton` synthesizes when no row is found
(`items.ts` lines 284-293): one property per `columnInfo` column, holding
that column's declared default value. -/
def buildDefaults (env : Env) (collection : String) : Item :=
  (env.columnInfo collection).foldl
    (fun defaults column => jsObjSet defaults column.name (env.defaultOf column)) []

/-- `readSingleton(query)` (`items.ts` lines 277-296). -/
def readSingleton (env : Env) (collection : String) (q : Query) : Item :=
  match env.execQuery collection (setLimitOne q) with
  | [] => buildDefaults env collection
  | record :: _ => record

/-- A JSON field node (`JsonFieldNode`): JSON column name, output alias,
logical path into the column, and the optional nested query (only its key
count is inspected by `preProcess`, via `Object.keys(query).length`). -/
structure JsonFieldNode where
  name : String
  fieldKey : String
  jsonPath : String
  query : List (String × Value) := []
deriving DecidableEq, Repr

/-- `a.isPrefixOf b` on character lists, written out for kernel reduction. -/
def isPrefixL : List Char → List Char → Bool
  | [], _ => true
  | _ :: _, [] => false
  | a :: as, b :: bs => a == b && isPrefixL as bs

/-- Scan for the leftmost occurrence of `sub`, JS `indexOf` style. -/
def jsIndexOfAux (sub : List Char) : List Char → Int → Int
  | [], i => if isPrefixL sub [] then i else -1
  | c :: t, i => if isPrefixL sub (c :: t) then i else jsIndexOfAux sub t (i + 1)

/-- JS `s.indexOf(sub)`: index of the leftmost occurrence, `-1` if none. -/
def jsIndexOf (s sub : String) : Int := jsIndexOfAux sub.data s.data 0

/-- What `JsonHelperOracle_12.preProcess` does with the node list
(`oracle_12.ts` lines 13-45): `joins` are the nodes given a derived table
and a left join (the `joinQueries` filter, note the `indexOf(...) > 0`
comparisons), and `selects` are the nodes handed to the main select list —
built from `this.nodes`, the whole node list, whenever the `selectQueries`
filter is non-empty. -/
structure PreProcessOut where
  joins : List JsonFieldNode
  selects : List JsonFieldNode
deriving DecidableEq, Repr

/-- Shallow embedding of `preProcess` (`oracle_12.ts` lines 13-45). -/
def preProcess (nodes : List JsonFieldNode) : PreProcessOut :=
  let selectQueries := nodes.filter (fun n =>
    (jsIndexOf n.jsonPath "[*]" == -1) && (jsIndexOf n.jsonPath ".*" == -1)
      && (n.query.length == 0))
  let joinQueries := nodes.filter (fun n =>
    decide (jsIndexOf n.jsonPath "[*]" > 0) || decide (jsIndexOf n.jsonPath ".*" > 0)
      || (n.query.length > 0))
  { joins := joinQueries,
    selects := if selectQueries.length > 0 then nodes else [] }

/-- `'[' :: '*' :: ']'`, the array-wildcard token. -/
def star3 : List Char := ['[', '*', ']']

/-- `'.' :: '*'`, the object-wildcard token. -/
def dot2 : List Char := ['.', '*']

/-- Prepend a character to the first piece of a split result. -/
def consHead (c : Char) : List (List Char) → List (List Char)
  | [] => [[c]]
  | t :: ts => (c :: t) :: ts

/-- JS `s.split('[*]')` on character lists (leftmost-first, literal
separator). -/
def splitStar3 : List Char → List (List Char)
  | [] => [[]]
  | [c] => [[c]]
  | [c, c1] => [[c, c1]]
  | c :: c1 :: c2 :: rest =>
    if c = '[' ∧ c1 = '*' ∧ c2 = ']' then [] :: splitStar3 rest
    else consHead c (splitStar3 (c1 :: c2 :: rest))

/-- JS `s.split('.*')` on character lists (a literal two-character
separator, not a regular expression). -/
def splitDot2 : List Char → List (List Char)
  | [] => [[]]
  | [c] => [[c]]
  | c :: c1 :: rest =>
    if c = '.' ∧ c1 = '*' then [] :: splitDot2 rest
    else consHead c (splitDot2 (c1 :: rest))

/-- The re-attachment loops of `splitQuery` (`oracle_12.ts` lines 158-160
and 164-167): append the wildcard token back to every piece but the last. -/
def reattach (sep : List Char) : List (List Char) → List (List Char)
  | [] => []
  | [x] => [x]
  | x :: y :: l => (x ++ sep) :: reattach sep (y :: l)

/-- The segments of `splitQuery` before root-marker normalization:
split at `[*]`, re-attach, then split each piece at `.*` and re-attach. -/
def preSegsL (p : List Char) : List (List Char) :=
  (reattach star3 (splitStar3 p)).flatMap (fun q => reattach dot2 (splitDot2 q))

/-- `q.startsWith('$') ? q : '$' + q` (`oracle_12.ts` line 170). -/
def normDollar (q : List Char) : List Char :=
  if q.head? == some '$' then q else '$' :: q

/-- `JsonHelperOracle_12.splitQuery` (`oracle_12.ts` lines 155-171) on
character lists. -/
def splitQueryL (p : List Char) : List (List Char) :=
  (preSegsL p).map normDollar

/-- `JsonHelperOracle_12.splitQuery` on strings. -/
def splitQuery (p : String) : List String :=
  (splitQueryL p.data).map (fun l => String.mk l)

/-- A trivial collaborator environment: every payload/authorization step is
the identity, `checkAccess` always allows, the primary-key field is `id`,
the `i`-th generated key is `i`, and storage is empty. -/
def envBase : Env where
  primary := fun _ => "id"
  columns := fun _ => ["id", "a", "b"]
  columnInfo := fun _ => []
  defaultOf := fun c => c.raw
  procM2O := fun it => .ok it
  procValues := fun _ it => .ok it
  authProcValues := fun _ _ it => .ok it
  checkAcc := fun _ _ _ => .ok ()
  genKey := fun n => .num n
  procO2M := fun _ => .ok ()
  execQuery := fun _ _ => []
  firstRow := fun _ => none

/-- An accountability context that is explicitly non-admin. -/
def accNonAdmin : Option Accountability := some { admin := some false }

/-- C1: the claim says every mutation with a non-null accountability whose
admin flag is not `true` passes the authorization gate before the statement
runs, and in particular that `delete` with `admin === false` still calls
`checkAccess('delete', ...)`.  The code's guard for `delete` is
`admin !== false`, so with `admin === false` the delete statement executes
with no gate call at all: the trace holds only the delete statement and the
activity insert, and a mutation statement appears before any gate event. -/
theorem delete_nonAdmin_skips_gate :
    (delete envBase "articles" accNonAdmin (.inl (Value.num 1))).trace
      = [Event.deleteStmt "articles" [Value.num 1],
         Event.activityInsert "articles" [Value.num 1]]
    ∧ gateFirst (delete envBase "articles" accNonAdmin (.inl (Value.num 1))).trace
      = false := by
  exact ⟨rfl, rfl⟩

/-- Environment whose authorization gate strips the field `b` from every
payload it processes. -/
def envStripB : Env :=
  { envBase with
    columns := fun _ => ["a", "b"],
    authProcValues := fun _ _ it => .ok (it.filter (fun p => p.1 != "b")) }

/-- C2: on a non-admin create, the gate's create-phase processing strips
field `b` from the payload, yet the rows handed to the insert statement are
the pre-gate `payloadsWithoutAliases`, still carrying `b`: the gate's
output never reaches the insert. -/
theorem create_insert_ignores_gate_output :
    (create envStripB "c" accNonAdmin
        (.inl [("a", Value.num 1), ("b", Value.num 2)])).trace
      = [Event.authProcessValues "create" "c",
         Event.insertStmt "c" [[("a", Value.num 1), ("b", Value.num 2)]],
         Event.activityInsert "c" [Value.num 0]]
    ∧ envStripB.authProcValues "create" "c" [("a", Value.num 1), ("b", Value.num 2)]
      = .ok [("a", Value.num 1)] := by
  exact ⟨rfl, rfl⟩

/-- C3: with one select-only node and one wildcard node, `preProcess` joins
the wildcard node *and* also includes it in the main select list (which is
built from `this.nodes`, not from `selectQueries`), so that node is handled
by both strategies; and a node whose wildcard sits at index 0 of its path
matches neither filter (`indexOf > 0` fails) and is dropped entirely. -/
theorem preProcess_double_handles_and_drops :
    preProcess
        [{ name := "col", fieldKey := "f1", jsonPath := "$.a" },
         { name := "col", fieldKey := "f2", jsonPath := "$.a[*]" }]
      = { joins := [{ name := "col", fieldKey := "f2", jsonPath := "$.a[*]" }],
          selects := [{ name := "col", fieldKey := "f1", jsonPath := "$.a" },
                      { name := "col", fieldKey := "f2", jsonPath := "$.a[*]" }] }
    ∧ preProcess [{ name := "col", fieldKey := "f0", jsonPath := "[*].a" }]
      = { joins := [], selects := [] } := by
  exact ⟨rfl, rfl⟩

/-- The first piece of a `jsPick` on a single key list: only that key can
be present, so any other key reads as absent. -/
theorem jsGet_jsPick_single_ne (row : Item) (pk k : String) (h : pk ≠ k) :
    jsGet (jsPick row [pk]) k = none := by
  have hpick : jsPick row [pk]
      = match jsGet row pk with
        | none => []
        | some v => [(pk, v)] := by
    unfold jsPick
    cases hv : jsGet row pk <;> simp [List.filterMap, hv]
  rw [hpick]
  cases hv : jsGet row pk with
  | none => rfl
  | some v =>
    simp [jsGet, List.find?, show (pk == k) = false from beq_eq_false_iff_ne.mpr h]

/-- C10: `upsertSingleton`'s existing-row branch keys the delegated update
on the probe row's `id` property: since the probe selects only the
primary-key field, every collection whose primary key is not named `id`
makes `update` receive an `undefined` key. -/
theorem upsertDelegation_undefined_key (env : Env) (collection : String)
    (data row : Item)
    (hrow : env.firstRow collection = some row)
    (hpk : env.primary collection ≠ "id") :
    upsertDelegation env collection data = .toUpdate data Value.undefined := by
  unfold upsertDelegation
  rw [hrow]
  simp only [UpsertCall.toUpdate.injEq, true_and]
  unfold jsLookup
  rw [jsGet_jsPick_single_ne row (env.primary collection) "id" hpk]
  rfl

/-- An environment whose primary-key field is named `code`, with one
existing row. -/
def envPkCode : Env :=
  { envBase with
    primary := fun _ => "code",
    firstRow := fun _ => some [("code", Value.num 7)] }

/-- Witness for C10 at a concrete collection whose primary key is `code`. -/
theorem upsertDelegation_undefined_key_witness :
    upsertDelegation envPkCode "c" [("a", Value.num 1)]
      = .toUpdate [("a", Value.num 1)] Value.undefined :=
  upsertDelegation_undefined_key envPkCode "c" [("a", Value.num 1)]
    [("code", Value.num 7)] rfl (by decide)

/-- C6: `readByKey` with a single key whose row the pipeline does not
return yields `undefined` (`none`), not an error; with an array of keys it
returns exactly the (possibly shorter) list of items the pipeline found. -/
theorem readByKey_single_miss_and_array (env : Env) (collection : String)
    (k : Value) (ks : List Value) (q : Query)
    (hempty : env.execQuery collection
        (queryWithFilter q (env.primary collection) [k]) = []) :
    readByKey env collection (.inl k) q = .inl none
    ∧ readByKey env collection (.inr ks) q
      = .inr (env.execQuery collection
          (queryWithFilter q (env.primary collection) ks)) := by
  constructor
  · unfold readByKey
    simp only [keyList, hempty]
    rfl
  · rfl

/-- Witness for C6: against empty storage, a single-key read is `none` and
an array read is `[]`. -/
theorem readByKey_single_miss_and_array_witness :
    readByKey envBase "c" (.inl (Value.num 1)) {} = .inl none
    ∧ readByKey envBase "c" (.inr [Value.num 1, Value.num 2]) {} = .inr [] :=
  ⟨(readByKey_single_miss_and_array envBase "c" (Value.num 1) [] {} rfl).1,
   (readByKey_single_miss_and_array envBase "c" (Value.num 1)
      [Value.num 1, Value.num 2] {} rfl).2⟩

/-- A caller query that itself constrains the primary-key field `id`. -/
def qPkEq : Query := { filter := some [("id", Cond.cond "_eq" (Value.str "5"))] }

/-- C7 counterexample: the spread `{...query.filter, [pk]: {_in: keys}}`
*overwrites* a caller condition on the primary-key field instead of
AND-combining with it: the caller's `_eq` condition on `id` is gone from
the executed filter. -/
theorem queryWithFilter_overwrites_pk_condition :
    ("id", Cond.cond "_eq" (Value.str "5")) ∈ qPkEq.filter.getD []
    ∧ (queryWithFilter qPkEq "id" [Value.str "7"]).filter
      = some [("id", Cond.inKeys [Value.str "7"])]
    ∧ ("id", Cond.cond "_eq" (Value.str "5"))
        ∉ (queryWithFilter qPkEq "id" [Value.str "7"]).filter.getD [] := by
  exact ⟨by decide, rfl, by decide⟩

/-- A pair whose key differs from `k` is untouched by `jsObjSet l k v`. -/
theorem jsObjSet_mem_of_ne {α : Type} (l : List (String × α)) (k f : String)
    (v c : α) (hf : f ≠ k) (hmem : (f, c) ∈ l) :
    (f, c) ∈ jsObjSet l k v := by
  unfold jsObjSet
  split
  · have himg :
        (fun p : String × α => if p.1 == k then (k, v) else p) (f, c) = (f, c) := by
      simp [beq_eq_false_iff_ne.mpr hf]
    exact himg ▸ List.mem_map_of_mem _ hmem
  · exact List.mem_append_left _ hmem

/-- Looking up `k` after `jsObjSet l k v` yields `v`. -/
theorem jsGet_jsObjSet_self {α : Type} (l : List (String × α)) (k : String)
    (v : α) : jsGet (jsObjSet l k v) k = some v := by
  unfold jsObjSet jsGet
  split
  · rename_i hany
    induction l with
    | nil => simp at hany
    | cons p t ih =>
      by_cases hp : p.1 == k
      · simp [List.find?, hp]
      · have : t.any (fun q => q.1 == k) = true := by
          rcases List.any_eq_true.mp hany with ⟨q, hq, hqk⟩
          cases List.mem_cons.mp hq with
          | inl h => exact absurd (h ▸ hqk) (by simpa using hp)
          | inr h => exact List.any_eq_true.mpr ⟨q, h, hqk⟩
        simpa [List.find?, hp] using ih this
  · induction l with
    | nil => simp [List.find?]
    | cons p t ih =>
      rename_i hany
      have hp : (p.1 == k) = false := by
        by_contra hc
        exact hany (List.any_eq_true.mpr ⟨p, List.mem_cons_self .., by simpa using hc⟩)
      have htany : ¬ t.any (fun q => q.1 == k) = true := by
        intro hc
        rcases List.any_eq_true.mp hc with ⟨q, hq, hqk⟩
        exact hany (List.any_eq_true.mpr ⟨q, List.mem_cons_of_mem _ hq, hqk⟩)
      simpa [List.find?, hp] using ih htany

/-- C7 (amended): `readByKey` preserves every caller filter condition on a
field other than the primary-key field, sets the primary-key field's
condition to `_in` of the requested keys (overwriting any caller condition
on that field), and carries the rest of the query through unchanged. -/
theorem queryWithFilter_merge (q : Query) (pk : String) (keys : List Value)
    (f : String) (c : Cond) (hf : f ≠ pk) (hmem : (f, c) ∈ q.filter.getD []) :
    (f, c) ∈ (queryWithFilter q pk keys).filter.getD []
    ∧ jsGet ((queryWithFilter q pk keys).filter.getD []) pk
      = some (Cond.inKeys keys)
    ∧ (queryWithFilter q pk keys).limit = q.limit := by
  refine ⟨?_, ?_, rfl⟩
  · exact jsObjSet_mem_of_ne _ pk f (Cond.inKeys keys) c hf hmem
  · exact jsGet_jsObjSet_self _ pk (Cond.inKeys keys)

/-- A caller query filtering on a non-primary-key field. -/
def qAuthorEq : Query :=
  { filter := some [("author", Cond.cond "_eq" (Value.num 3))] }

/-- Witness for the amended C7 at a concrete query. -/
theorem queryWithFilter_merge_witness :
    ("author", Cond.cond "_eq" (Value.num 3))
        ∈ (queryWithFilter qAuthorEq "id" [Value.num 9]).filter.getD []
    ∧ jsGet ((queryWithFilter qAuthorEq "id" [Value.num 9]).filter.getD []) "id"
      = some (Cond.inKeys [Value.num 9]) :=
  ⟨(queryWithFilter_merge qAuthorEq "id" [Value.num 9] "author"
      (Cond.cond "_eq" (Value.num 3)) (by decide) (by decide)).1,
   (queryWithFilter_merge qAuthorEq "id" [Value.num 9] "author"
      (Cond.cond "_eq" (Value.num 3)) (by decide) (by decide)).2.1⟩

/-- Overwriting the value stored under `k` does not change `find?` for a
different key `n`. -/
theorem find?_overwrite_ne {α : Type} (t : List (String × α)) (k n : String)
    (v : α) (h : n ≠ k) :
    List.find? (fun p => p.1 == n)
        (t.map (fun p => if p.1 == k then (k, v) else p))
      = List.find? (fun p => p.1 == n) t := by
  induction t with
  | nil => rfl
  | cons p t ih =>
    rw [List.map_cons]
    by_cases hp : (p.1 == k) = true
    · have hkn : (((k, v) : String × α).1 == n) = false :=
        beq_eq_false_iff_ne.mpr (fun e => h e.symm)
      have hpn : (p.1 == n) = false := by
        have hp' := eq_of_beq hp
        rw [hp']
        exact beq_eq_false_iff_ne.mpr (fun e => h e.symm)
      rw [if_pos hp]
      simp only [List.find?, hkn, hpn, ih]
    · rw [if_neg hp]
      by_cases hn : (p.1 == n) = true
      · simp only [List.find?, hn]
      · simp only [List.find?, Bool.of_not_eq_true hn, ih]

/-- Appending an entry keyed `k` does not change `find?` for a different
key `n`. -/
theorem find?_append_absent {α : Type} (t : List (String × α)) (k n : String)
    (v : α) (h : n ≠ k) :
    List.find? (fun p => p.1 == n) (t ++ [(k, v)])
      = List.find? (fun p => p.1 == n) t := by
  induction t with
  | nil =>
    have hkn : (((k, v) : String × α).1 == n) = false :=
      beq_eq_false_iff_ne.mpr (fun e => h e.symm)
    rw [List.nil_append]
    simp only [List.find?, hkn]
  | cons p t ih =>
    rw [List.cons_append]
    by_cases hn : (p.1 == n) = true
    · simp only [List.find?, hn]
    · simp only [List.find?, Bool.of_not_eq_true hn, ih]

/-- Looking up a different key is unaffected by `jsObjSet`. -/
theorem jsGet_jsObjSet_ne {α : Type} (l : List (String × α)) (k n : String)
    (v : α) (h : n ≠ k) : jsGet (jsObjSet l k v) n = jsGet l n := by
  unfold jsObjSet jsGet
  split
  · rw [find?_overwrite_ne l k n v h]
  · rw [find?_append_absent l k n v h]

/-- Folding `jsObjSet` over columns none of which is named `n` leaves the
lookup of `n` unchanged. -/
theorem jsGet_buildDefaults_skip (dflt : Column → Value) (cols : List Column)
    (acc : List (String × Value)) (n : String)
    (hn : ∀ col ∈ cols, col.name ≠ n) :
    jsGet (cols.foldl (fun d col => jsObjSet d col.name (dflt col)) acc) n
      = jsGet acc n := by
  induction cols generalizing acc with
  | nil => rfl
  | cons c t ih =>
    have hc : c.name ≠ n := hn c (List.mem_cons_self ..)
    rw [List.foldl_cons, ih _ (fun col hcol => hn col (List.mem_cons_of_mem _ hcol)),
      jsGet_jsObjSet_ne _ c.name n (dflt c) (fun hcn => hc hcn.symm)]

/-- Folding `jsObjSet` over columns with pairwise-distinct names maps each
column's name to its computed default. -/
theorem jsGet_foldl_defaults (dflt : Column → Value) (cols : List Column)
    (acc : List (String × Value)) (hnodup : (cols.map Column.name).Nodup) :
    ∀ col ∈ cols,
      jsGet (cols.foldl (fun d c => jsObjSet d c.name (dflt c)) acc) col.name
        = some (dflt col) := by
  induction cols generalizing acc with
  | nil => intro col hcol; cases hcol
  | cons c t ih =>
    intro col hcol
    have hnodup' := List.nodup_cons.mp hnodup
    cases List.mem_cons.mp hcol with
    | inl hceq =>
      subst hceq
      rw [List.foldl_cons,
        jsGet_buildDefaults_skip dflt t (jsObjSet acc col.name (dflt col)) col.name
          (fun c2 hc2 hc2n => hnodup'.1 (hc2n ▸ List.mem_map_of_mem Column.name hc2)),
        jsGet_jsObjSet_self]
    | inr hmem =>
      rw [List.foldl_cons]
      exact ih _ hnodup'.2 col hmem

/-- C8: `readSingleton` always executes its query with `limit = 1`; when
the pipeline yields no row it returns the synthesized Item that maps each
`columnInfo` column name to that column's declared default value (it never
returns an empty or undefined result); when a row is found it returns that
row. -/
theorem readSingleton_limit_and_defaults (env : Env) (collection : String)
    (q : Query) (hnodup : ((env.columnInfo collection).map Column.name).Nodup) :
    (setLimitOne q).limit = some 1
    ∧ (env.execQuery collection (setLimitOne q) = [] →
        readSingleton env collection q = buildDefaults env collection
        ∧ ∀ col ∈ env.columnInfo collection,
            jsGet (buildDefaults env collection) col.name
              = some (env.defaultOf col))
    ∧ (∀ r rs, env.execQuery collection (setLimitOne q) = r :: rs →
        readSingleton env collection q = r) := by
  refine ⟨rfl, fun hempty => ⟨?_, ?_⟩, fun r rs hcons => ?_⟩
  · unfold readSingleton
    rw [hempty]
  · exact jsGet_foldl_defaults env.defaultOf (env.columnInfo collection) [] hnodup
  · unfold readSingleton
    rw [hcons]

/-- Environment with two columns carrying declared defaults, and empty
storage. -/
def envDefaults : Env :=
  { envBase with
    columnInfo := fun _ =>
      [{ name := "id", raw := Value.null }, { name := "title", raw := Value.str "untitled" }],
    defaultOf := fun c => c.raw }

/-- Witness for C8: on empty storage the singleton read returns the
default-populated Item. -/
theorem readSingleton_limit_and_defaults_witness :
    readSingleton envDefaults "c" {} = buildDefaults envDefaults "c"
    ∧ jsGet (buildDefaults envDefaults "c") "title" = some (Value.str "untitled") :=
  ⟨((readSingleton_limit_and_defaults envDefaults "c" {} (by decide)).2.1 rfl).1,
   ((readSingleton_limit_and_defaults envDefaults "c" {} (by decide)).2.1 rfl).2
     { name := "title", raw := Value.str "untitled" } (by decide)⟩

/-- The batch loop fails with the `InvalidPayloadException` when it reaches
an element whose primary-key property is falsy, provided every earlier
element carried a truthy primary key and updated successfully. -/
theorem updateBatchGo_missing_pk (env : Env) (collection : String)
    (acc : Option Accountability) (pk : String) (bad : Item) (post : List Item)
    (hbad : (jsLookup bad pk).truthy = false) (pre : List Item)
    (hpre : ∀ it ∈ pre, (jsLookup it pk).truthy = true)
    (hok : ∀ it ∈ pre,
      (updateOne env collection acc it (.inl (jsLookup it pk))).out.isOk = true) :
    (updateBatchGo env collection acc pk (pre ++ bad :: post)).2
      = .error (.invalidPayload "Primary key is missing in update payload.") := by
  induction pre with
  | nil =>
    rw [List.nil_append]
    simp [updateBatchGo, hbad]
  | cons it t ih =>
    rw [List.cons_append]
    have hkey := hpre it (List.mem_cons_self ..)
    have hok1 := hok it (List.mem_cons_self ..)
    simp only [updateBatchGo, hkey, if_true]
    unfold updateBatchStep
    cases hr : (updateOne env collection acc it (.inl (jsLookup it pk))).out with
    | error e => rw [hr] at hok1; cases hok1
    | ok v =>
      have hrest := ih (fun x hx => hpre x (List.mem_cons_of_mem _ hx))
        (fun x hx => hok x (List.mem_cons_of_mem _ hx))
      simp [hrest]

/-- C4: in batch update (array payload, no key argument), an element whose
payload lacks a (truthy) value under the collection's primary-key field
makes the whole call fail with the `InvalidPayloadException`, and since all
per-element updates are nested in one outer transaction, nothing of the
batch is committed — the writes of every element roll back. -/
theorem update_batch_missing_pk_rolls_back (env : Env) (collection : String)
    (acc : Option Accountability) (pre post : List Item) (bad : Item)
    (hbad : (jsLookup bad (env.primary collection)).truthy = false)
    (hpre : ∀ it ∈ pre, (jsLookup it (env.primary collection)).truthy = true)
    (hok : ∀ it ∈ pre,
      (updateOne env collection acc it
        (.inl (jsLookup it (env.primary collection)))).out.isOk = true) :
    (update env collection acc (.inr (pre ++ bad :: post)) none).out
      = .error (.invalidPayload "Primary key is missing in update payload.")
    ∧ (update env collection acc (.inr (pre ++ bad :: post)) none).committed
      = [] := by
  have hgo := updateBatchGo_missing_pk env collection acc
    (env.primary collection) bad post hbad pre hpre hok
  have hupd : update env collection acc (.inr (pre ++ bad :: post)) none
      = updateBatch env collection acc (pre ++ bad :: post) := rfl
  rw [hupd]
  unfold updateBatch
  rw [hgo]
  exact ⟨rfl, rfl⟩

/-- Witness for C4: a two-element batch whose second element has no primary
key fails with the `InvalidPayloadException` and commits nothing, even
though the first element's update statement was issued. -/
theorem update_batch_missing_pk_rolls_back_witness :
    (update envBase "c" accNonAdmin
        (.inr [[("id", Value.num 1), ("a", Value.num 2)], [("a", Value.num 3)]])
        none).out
      = .error (.invalidPayload "Primary key is missing in update payload.")
    ∧ (update envBase "c" accNonAdmin
        (.inr [[("id", Value.num 1), ("a", Value.num 2)], [("a", Value.num 3)]])
        none).committed
      = [] :=
  update_batch_missing_pk_rolls_back envBase "c" accNonAdmin
    [[("id", Value.num 1), ("a", Value.num 2)]] [] [("a", Value.num 3)]
    (by decide) (by decide) (by decide)

/-- `mapME` preserves length on success. -/
theorem mapME_ok_length {α β : Type} (f : α → Except Err β) (l : List α)
    (l' : List β) (h : mapME f l = .ok l') : l'.length = l.length := by
  induction l generalizing l' with
  | nil =>
    simp only [mapME] at h
    cases h
    rfl
  | cons a t ih =>
    simp only [mapME] at h
    split at h
    · cases h
    · split at h
      · cases h
      · rename_i b hb bs hbs
        cases h
        simp only [List.length_cons, ih bs hbs]

/-- On success, `createTrx` returns one generated key per input payload,
in input order. -/
theorem createTrx_ok (env : Env) (collection : String)
    (acc : Option Accountability) (pk : String) (cols : List String)
    (payloads : List Item) (ks : List Value)
    (h : (createTrx env collection acc pk cols payloads).2 = .ok ks) :
    ks = (List.range payloads.length).map env.genKey := by
  unfold createTrx at h
  cases h1 : mapME env.procM2O payloads with
  | error e => simp [h1] at h
  | ok payloads1 =>
    simp only [h1] at h
    cases h2 : mapME (env.procValues "create")
        (payloads1.map (fun p => jsPick p cols)) with
    | error e => simp [h2] at h
    | ok pwa1 =>
      simp only [h2] at h
      cases h3 : (if gateActiveCU acc then
          mapME (env.authProcValues "create" collection) payloads1
        else .ok payloads1) with
      | error e => simp [h3] at h
      | ok payloads2 =>
        simp only [h3] at h
        cases h4 : mapME env.procO2M
            (List.zipWith (fun p k => jsObjSet p pk k) payloads2
              ((List.range pwa1.length).map env.genKey)) with
        | error e => simp [h4] at h
        | ok u =>
          simp only [h4] at h
          cases h
          have l1 := mapME_ok_length _ _ _ h1
          have l2 := mapME_ok_length _ _ _ h2
          rw [l2, List.length_map, l1]

/-- On success, the single-payload transaction returns the `key` argument. -/
theorem updateOneTrx_ok (env : Env) (collection : String) (payload : Item)
    (key : Sum Value (List Value)) (keys : List Value) (cols : List String)
    (preTr : List Event) (r : Sum Value (List Value))
    (h : (updateOneTrx env collection payload key keys cols preTr).out = .ok r) :
    r = key := by
  unfold updateOneTrx at h
  split at h
  · simp at h
  · split at h
    · simp at h
    · split at h
      · simp at h
      · exact (Except.ok.inj h).symm

/-- On success, single-payload `update` returns the `key` argument. -/
theorem updateOne_ok (env : Env) (collection : String)
    (acc : Option Accountability) (data : Item) (key : Sum Value (List Value))
    (r : Sum Value (List Value))
    (h : (updateOne env collection acc data key).out = .ok r) : r = key := by
  unfold updateOne at h
  split at h
  · split at h
    · simp at h
    · split at h
      · simp at h
      · exact updateOneTrx_ok _ _ _ _ _ _ _ _ h
  · exact updateOneTrx_ok _ _ _ _ _ _ _ _ h

/-- On success, the batch loop returns exactly the primary-key values read
from the payloads, in payload order. -/
theorem updateBatchGo_ok (env : Env) (collection : String)
    (acc : Option Accountability) (pk : String) (items : List Item)
    (ks : List Value) (h : (updateBatchGo env collection acc pk items).2 = .ok ks) :
    ks = items.map (fun it => jsLookup it pk) := by
  induction items generalizing ks with
  | nil =>
    simp only [updateBatchGo] at h
    cases h
    rfl
  | cons it t ih =>
    simp only [updateBatchGo] at h
    split at h
    · unfold updateBatchStep at h
      split at h
      · simp at h
      · split at h
        · rename_i ks' hks'
          cases h
          rw [List.map_cons, ih ks' hks']
        · simp at h
    · simp at h

/-- `delete` either returns its `key` argument or fails. -/
theorem delete_out (env : Env) (collection : String)
    (acc : Option Accountability) (key : Sum Value (List Value)) :
    (delete env collection acc key).out = .ok key
    ∨ ∃ e, (delete env collection acc key).out = .error e := by
  unfold delete
  split
  · split
    · exact .inr ⟨_, rfl⟩
    · exact .inl rfl
  · exact .inl rfl

/-- C5: shape preservation.  On success: `create` of a single payload
returns a single key and `create` of an array of N payloads returns the N
generated keys in payload order; `update` with a (truthy) key argument
returns that argument unchanged (single key in, single key out; key array
in, same array out) and batch `update` of N payloads returns the N
primary-key values read from the payloads, in payload order; `delete`
returns its key argument unchanged. -/
theorem cud_shape_preservation (env : Env) (collection : String)
    (acc : Option Accountability) :
    (∀ d r, (create env collection acc (.inl d)).out = .ok r →
        ∃ v, r = .inl v)
    ∧ (∀ ds r, (create env collection acc (.inr ds)).out = .ok r →
        ∃ ks, r = .inr ks ∧ ks.length = ds.length
          ∧ ks = (List.range ds.length).map env.genKey)
    ∧ (∀ d k r, keyTruthy (some k) = true →
        (update env collection acc d (some k)).out = .ok r → r = k)
    ∧ (∀ items r, (update env collection acc (.inr items) none).out = .ok r →
        ∃ ks, r = .inr ks ∧ ks.length = items.length
          ∧ ks = items.map (fun it => jsLookup it (env.primary collection)))
    ∧ (∀ k, (delete env collection acc k).out.isOk = true →
        (delete env collection acc k).out = .ok k) := by
  refine ⟨?_, ?_, ?_, ?_, ?_⟩
  · intro d r h
    unfold create at h
    split at h
    · simp at h
    · exact ⟨_, (Except.ok.inj h).symm⟩
  · intro ds r h
    unfold create at h
    split at h
    · simp at h
    · rename_i tr ks heq
      refine ⟨ks, (Except.ok.inj h).symm, ?_, ?_⟩
      · have h2 : (createTrx env collection acc (env.primary collection)
            (env.columns collection) (sumToList (Sum.inr ds))).2 = .ok ks := by
          rw [heq]
        have := createTrx_ok _ _ _ _ _ _ _ h2
        rw [this, List.length_map, List.length_range]
        rfl
      · have h2 : (createTrx env collection acc (env.primary collection)
            (env.columns collection) (sumToList (Sum.inr ds))).2 = .ok ks := by
          rw [heq]
        exact createTrx_ok _ _ _ _ _ _ _ h2
  · intro d k r htr h
    unfold update at h
    rw [if_pos htr] at h
    cases d with
    | inl d' => exact updateOne_ok _ _ _ _ _ _ h
    | inr ds => simp at h
  · intro items r h
    have hupd : update env collection acc (.inr items) none
        = updateBatch env collection acc items := rfl
    rw [hupd] at h
    unfold updateBatch at h
    split at h
    · rename_i ks hks
      refine ⟨ks, (Except.ok.inj h).symm, ?_, updateBatchGo_ok _ _ _ _ _ _ hks⟩
      rw [updateBatchGo_ok _ _ _ _ _ _ hks, List.length_map]
    · simp at h
  · intro k hk
    rcases delete_out env collection acc k with h | ⟨e, h⟩
    · exact h
    · rw [h] at hk
      cases hk

/-- Witness for C5: concrete shape checks through the theorem. -/
theorem cud_shape_preservation_witness :
    (delete envBase "c" none (.inl (Value.num 1))).out = .ok (.inl (Value.num 1))
    ∧ ∃ v, (Sum.inl (Value.num 0) : Sum Value (List Value)) = .inl v :=
  ⟨(cud_shape_preservation envBase "c" none).2.2.2.2 (.inl (Value.num 1)) (by decide),
   (cud_shape_preservation envBase "c" none).1 [("a", Value.num 1)]
     (.inl (Value.num 0)) rfl⟩

/-- Intercalation of a separator, the inverse of splitting. -/
def interL (sep : List Char) : List (List Char) → List Char
  | [] => []
  | [x] => x
  | x :: y :: l => x ++ sep ++ interL sep (y :: l)

/-- Concatenation of a list of segments. -/
def joinL : List (List Char) → List Char
  | [] => []
  | x :: l => x ++ joinL l

/-- Apply a function to the last element of a list. -/
def modifyLast (f : List Char → List Char) : List (List Char) → List (List Char)
  | [] => []
  | [x] => [f x]
  | x :: y :: l => x :: modifyLast f (y :: l)

/-- `q` ends with the token `tok`. -/
def endsWith (tok q : List Char) : Prop := ∃ u, q = u ++ tok

/-- `P` holds of every element of the list except (possibly) the last. -/
def nonLastAll (P : List Char → Prop) : List (List Char) → Prop
  | [] => True
  | [_] => True
  | x :: y :: l => P x ∧ nonLastAll P (y :: l)

/-- `consHead` never returns the empty list. -/
theorem consHead_ne_nil (c : Char) (L : List (List Char)) : consHead c L ≠ [] := by
  cases L <;> simp [consHead]

/-- A split always yields at least one piece. -/
theorem splitStar3_ne_nil (s : List Char) : splitStar3 s ≠ [] := by
  induction s using splitStar3.induct with
  | case1 => simp [splitStar3]
  | case2 c => simp [splitStar3]
  | case3 c c1 => simp [splitStar3]
  | case4 c c1 c2 rest hcond ih =>
    simp only [splitStar3, if_pos hcond]
    simp
  | case5 c c1 c2 rest hcond ih =>
    simp only [splitStar3, if_neg hcond]
    exact consHead_ne_nil _ _

/-- A split always yields at least one piece. -/
theorem splitDot2_ne_nil (s : List Char) : splitDot2 s ≠ [] := by
  induction s using splitDot2.induct with
  | case1 => simp [splitDot2]
  | case2 c => simp [splitDot2]
  | case3 c c1 rest hcond ih =>
    simp only [splitDot2, if_pos hcond]
    simp
  | case4 c c1 rest hcond ih =>
    simp only [splitDot2, if_neg hcond]
    exact consHead_ne_nil _ _

/-- `interL` over a `consHead` prepends the character to the whole
intercalation. -/
theorem interL_consHead (sep : List Char) (c : Char) (L : List (List Char))
    (hL : L ≠ []) : interL sep (consHead c L) = c :: interL sep L := by
  cases L with
  | nil => exact absurd rfl hL
  | cons x l =>
    cases l with
    | nil => rfl
    | cons y l2 => rfl

/-- Splitting at `[*]` and re-intercalating `[*]` restores the string. -/
theorem interL_splitStar3 (s : List Char) :
    interL star3 (splitStar3 s) = s := by
  induction s using splitStar3.induct with
  | case1 => rfl
  | case2 c => rfl
  | case3 c c1 => rfl
  | case4 c c1 c2 rest hcond ih =>
    obtain ⟨h1, h2, h3⟩ := hcond
    subst h1; subst h2; subst h3
    simp only [splitStar3, if_pos (⟨rfl, rfl, rfl⟩ : _ ∧ _ ∧ _)]
    cases hsp : splitStar3 rest with
    | nil => exact absurd hsp (splitStar3_ne_nil rest)
    | cons t ts =>
      rw [hsp] at ih
      simp only [interL, List.nil_append]
      rw [ih]
      rfl
  | case5 c c1 c2 rest hcond ih =>
    simp only [splitStar3, if_neg hcond]
    rw [interL_consHead star3 c _ (splitStar3_ne_nil _), ih]

/-- Splitting at `.*` and re-intercalating `.*` restores the string. -/
theorem interL_splitDot2 (s : List Char) :
    interL dot2 (splitDot2 s) = s := by
  induction s using splitDot2.induct with
  | case1 => rfl
  | case2 c => rfl
  | case3 c c1 rest hcond ih =>
    obtain ⟨h1, h2⟩ := hcond
    subst h1; subst h2
    simp only [splitDot2, if_pos (⟨rfl, rfl⟩ : _ ∧ _)]
    cases hsp : splitDot2 rest with
    | nil => exact absurd hsp (splitDot2_ne_nil rest)
    | cons t ts =>
      rw [hsp] at ih
      simp only [interL, List.nil_append]
      rw [ih]
      rfl
  | case4 c c1 rest hcond ih =>
    simp only [splitDot2, if_neg hcond]
    rw [interL_consHead dot2 c _ (splitDot2_ne_nil _), ih]

/-- Re-attaching the separator to every piece but the last turns
intercalation into plain concatenation. -/
theorem joinL_reattach (sep : List Char) (L : List (List Char)) :
    joinL (reattach sep L) = interL sep L := by
  induction L with
  | nil => rfl
  | cons x l ih =>
    cases l with
    | nil => simp [reattach, joinL, interL]
    | cons y l2 =>
      simp only [reattach, joinL, interL, ih, List.append_assoc]

/-- Every piece but the last of a re-attached split ends with the
separator. -/
theorem nonLastAll_reattach (sep : List Char) (L : List (List Char)) :
    nonLastAll (endsWith sep) (reattach sep L) := by
  induction L with
  | nil => trivial
  | cons x l ih =>
    cases l with
    | nil => trivial
    | cons y l2 =>
      cases hre : reattach sep (y :: l2) with
      | nil =>
        cases l2 <;> simp [reattach] at hre
      | cons z zs =>
        simp only [reattach]
        rw [hre]
        exact show endsWith sep (x ++ sep) ∧ nonLastAll (endsWith sep) (z :: zs)
          from ⟨⟨x, rfl⟩, hre ▸ ih⟩

/-- `reattach` keeps the last piece unchanged. -/
theorem getLast_reattach (sep : List Char) (L : List (List Char)) (h : L ≠ [])
    (h2 : reattach sep L ≠ []) :
    (reattach sep L).getLast h2 = L.getLast h := by
  induction L with
  | nil => exact absurd rfl h
  | cons x l ih =>
    cases l with
    | nil => rfl
    | cons y l2 =>
      have hne : reattach sep (y :: l2) ≠ [] := by
        cases l2 <;> simp [reattach]
      calc (reattach sep (x :: y :: l2)).getLast h2
          = (reattach sep (y :: l2)).getLast hne := by
            simp only [reattach]
            exact List.getLast_cons hne
        _ = (y :: l2).getLast (by simp) := ih (by simp) hne
        _ = (x :: y :: l2).getLast h := (List.getLast_cons (by simp)).symm

/-- `modifyLast` on a cons with non-empty tail skips the head. -/
theorem modifyLast_cons (f : List Char → List Char) (x : List Char)
    (L : List (List Char)) (h : L ≠ []) :
    modifyLast f (x :: L) = x :: modifyLast f L := by
  cases L with
  | nil => exact absurd rfl h
  | cons y l => rfl

/-- `modifyLast` with a right-append commutes with `consHead`. -/
theorem modifyLast_append_consHead (u : List Char) (c : Char)
    (L : List (List Char)) (hL : L ≠ []) :
    modifyLast (fun q => q ++ u) (consHead c L)
      = consHead c (modifyLast (fun q => q ++ u) L) := by
  cases L with
  | nil => exact absurd rfl hL
  | cons x l =>
    cases l with
    | nil => rfl
    | cons y l2 => rfl

/-- `modifyLast` never empties a list. -/
theorem modifyLast_ne_nil (f : List Char → List Char) (L : List (List Char))
    (h : L ≠ []) : modifyLast f L ≠ [] := by
  cases L with
  | nil => exact absurd rfl h
  | cons x l => cases l <;> simp [modifyLast]

/-- `modifyLast` applies the function to the last element. -/
theorem getLast_modifyLast (f : List Char → List Char) (L : List (List Char))
    (h : L ≠ []) (h2 : modifyLast f L ≠ []) :
    (modifyLast f L).getLast h2 = f (L.getLast h) := by
  induction L with
  | nil => exact absurd rfl h
  | cons x l ih =>
    cases l with
    | nil => rfl
    | cons y l2 =>
      have hml : modifyLast f (y :: l2) ≠ [] := modifyLast_ne_nil f _ (by simp)
      calc (modifyLast f (x :: y :: l2)).getLast h2
          = (modifyLast f (y :: l2)).getLast hml := by
            exact List.getLast_cons hml
        _ = f ((y :: l2).getLast (by simp)) := ih (by simp) hml
        _ = f ((x :: y :: l2).getLast h) := by
            rw [List.getLast_cons (by simp : (y :: l2) ≠ [])]

/-- Concrete evaluation: the `.*` split leaves the `[*]` token whole. -/
theorem splitDot2_star3lit :
    splitDot2 ['[', '*', ']'] = [['[', '*', ']']] := by decide

/-- Appending the `[*]` token to a string cannot create or destroy a `.*`
occurrence, so the `.*` split of `t ++ "[*]"` is the `.*` split of `t`
with `[*]` appended to its last piece. -/
theorem splitDot2_append_star3 (t : List Char) :
    splitDot2 (t ++ star3)
      = modifyLast (fun q => q ++ star3) (splitDot2 t) := by
  induction t using splitDot2.induct with
  | case1 => decide
  | case2 c =>
    show splitDot2 (c :: '[' :: '*' :: ']' :: []) = _
    simp [splitDot2, consHead, modifyLast, star3,
      show ('[' : Char) ≠ '.' from by decide,
      show ('*' : Char) ≠ '.' from by decide,
      show (']' : Char) ≠ '*' from by decide]
  | case3 c c1 rest hcond ih =>
    obtain ⟨h1, h2⟩ := hcond
    subst h1; subst h2
    rw [List.cons_append, List.cons_append]
    simp only [splitDot2, eq_self_iff_true, and_self, if_true, ih]
    rw [modifyLast_cons _ _ _ (splitDot2_ne_nil rest)]
  | case4 c c1 rest hcond ih =>
    rw [List.cons_append, List.cons_append]
    simp only [splitDot2, if_neg hcond]
    rw [← List.cons_append, ih,
      ← modifyLast_append_consHead star3 c _ (splitDot2_ne_nil (c1 :: rest))]

/-- Weakening of `nonLastAll`. -/
theorem nonLastAll_imp (P P' : List Char → Prop) (h : ∀ q, P q → P' q) :
    ∀ L, nonLastAll P L → nonLastAll P' L := by
  intro L
  induction L with
  | nil => intro; trivial
  | cons x l ih =>
    cases l with
    | nil => intro; trivial
    | cons y l2 =>
      intro hl
      exact ⟨h x hl.1, ih hl.2⟩

/-- From `P` on every non-last element and `Q` on the last, every element
satisfies `P ∨ Q`. -/
theorem mem_of_nonLastAll_getLast (P Q : List Char → Prop)
    (L : List (List Char)) (hnl : nonLastAll P L)
    (hlast : ∀ h : L ≠ [], Q (L.getLast h)) :
    ∀ e ∈ L, P e ∨ Q e := by
  induction L with
  | nil => intro e he; cases he
  | cons x l ih =>
    cases l with
    | nil =>
      intro e he
      rw [List.mem_singleton] at he
      subst he
      exact .inr (hlast (by simp))
    | cons y l2 =>
      intro e he
      cases List.mem_cons.mp he with
      | inl hex => exact .inl (hex ▸ hnl.1)
      | inr hemem =>
        refine ih hnl.2 (fun h => ?_) e hemem
        have := hlast (by simp)
        rwa [List.getLast_cons (by simp : (y :: l2) ≠ [])] at this

/-- `nonLastAll` glues along an append when the left part satisfies `P`
everywhere. -/
theorem nonLastAll_append (P : List Char → Prop) (a b : List (List Char))
    (ha : ∀ e ∈ a, P e) (hb : nonLastAll P b) : nonLastAll P (a ++ b) := by
  induction a with
  | nil => simpa using hb
  | cons x l ih =>
    have hx := ha x (List.mem_cons_self ..)
    have hrest := ih (fun e he => ha e (List.mem_cons_of_mem _ he))
    cases hl : l ++ b with
    | nil =>
      rw [List.cons_append, hl]
      trivial
    | cons z zs =>
      rw [List.cons_append, hl]
      exact show P x ∧ nonLastAll P (z :: zs) from ⟨hx, hl ▸ hrest⟩

/-- The segments contributed by one re-attached `[*]` piece: all inner
segments end with `.*`, and the last one ends with `[*]` when the piece
itself does. -/
theorem stage2_all_wildcard (q : List Char) (hq : endsWith star3 q) :
    ∀ e ∈ reattach dot2 (splitDot2 q),
      endsWith star3 e ∨ endsWith dot2 e := by
  obtain ⟨u, rfl⟩ := hq
  intro e he
  refine Or.symm (mem_of_nonLastAll_getLast (endsWith dot2) (endsWith star3)
    _ (nonLastAll_reattach dot2 _) (fun h => ?_) e he)
  have hne : splitDot2 (u ++ star3) ≠ [] := splitDot2_ne_nil _
  rw [getLast_reattach dot2 _ hne h]
  have hml : modifyLast (fun x => x ++ star3) (splitDot2 u) ≠ [] :=
    modifyLast_ne_nil _ _ (splitDot2_ne_nil u)
  have : (splitDot2 (u ++ star3)).getLast hne
      = ((splitDot2 u).getLast (splitDot2_ne_nil u)) ++ star3 := by
    have hcast :
        (splitDot2 (u ++ star3)).getLast hne
          = (modifyLast (fun x => x ++ star3) (splitDot2 u)).getLast hml := by
      congr 1
      exact splitDot2_append_star3 u
    rw [hcast, getLast_modifyLast]
  rw [this]
  exact ⟨_, rfl⟩

/-- Every segment of `preSegsL` except the last ends with a wildcard
token. -/
theorem nonLastAll_preSegsL (p : List Char) :
    nonLastAll (fun q => endsWith star3 q ∨ endsWith dot2 q) (preSegsL p) := by
  unfold preSegsL
  have hgen : ∀ parts : List (List Char),
      nonLastAll (endsWith star3) parts →
      nonLastAll (fun q => endsWith star3 q ∨ endsWith dot2 q)
        (parts.flatMap (fun q => reattach dot2 (splitDot2 q))) := by
    intro parts
    induction parts with
    | nil => intro; trivial
    | cons x l ih =>
      cases l with
      | nil =>
        intro
        simp only [List.flatMap_cons, List.flatMap_nil, List.append_nil]
        exact nonLastAll_imp (endsWith dot2) _ (fun q h => .inr h) _
          (nonLastAll_reattach dot2 _)
      | cons y l2 =>
        intro hnl
        rw [List.flatMap_cons]
        exact nonLastAll_append _ _ _ (stage2_all_wildcard x hnl.1) (ih hnl.2)
  exact hgen _ (nonLastAll_reattach star3 _)

/-- `joinL` distributes over append. -/
theorem joinL_append (a b : List (List Char)) :
    joinL (a ++ b) = joinL a ++ joinL b := by
  induction a with
  | nil => rfl
  | cons x l ih => simp [joinL, ih, List.append_assoc]

/-- Re-attached `.*` splitting is lossless piece by piece, so flattening
the two-stage split restores the flattening of the first stage. -/
theorem joinL_flatMap_stage2 (parts : List (List Char)) :
    joinL (parts.flatMap (fun q => reattach dot2 (splitDot2 q)))
      = joinL parts := by
  induction parts with
  | nil => rfl
  | cons x l ih =>
    rw [List.flatMap_cons, joinL_append, ih, joinL_reattach, interL_splitDot2]
    rfl

/-- The segments of `splitQuery` before `$`-normalization concatenate back
to the original path: splitting loses nothing and re-attaches every
wildcard token. -/
theorem joinL_preSegsL (p : List Char) : joinL (preSegsL p) = p := by
  unfold preSegsL
  rw [joinL_flatMap_stage2, joinL_reattach, interL_splitStar3]

/-- Every final segment of `splitQuery` begins with the root marker. -/
theorem head_splitQueryL (p : List Char) :
    ∀ s ∈ splitQueryL p, s.head? = some '$' := by
  intro s hs
  unfold splitQueryL at hs
  rcases List.mem_map.mp hs with ⟨q, hq, rfl⟩
  unfold normDollar
  by_cases h : (q.head? == some '$') = true
  · rw [if_pos h]
    exact eq_of_beq h
  · rw [if_neg h]
    rfl

/-- C9: `splitQuery` splits the path at `[*]` and `.*` wildcard
boundaries, re-attaching each wildcard token to the end of the segment that
introduces it — every pre-normalization segment but the last ends with a
wildcard token, and concatenating the pre-normalization segments restores
the original path — and returns segments each of which begins with the root
marker `$`, a `$` being prepended exactly to segments not already starting
with it. -/
theorem splitQuery_splits_and_normalizes (p : String) :
    (∀ s ∈ splitQueryL p.data, s.head? = some '$')
    ∧ joinL (preSegsL p.data) = p.data
    ∧ nonLastAll (fun q => endsWith star3 q ∨ endsWith dot2 q) (preSegsL p.data)
    ∧ splitQueryL p.data = (preSegsL p.data).map normDollar
    ∧ splitQuery p = (splitQueryL p.data).map (fun l => String.mk l) :=
  ⟨head_splitQueryL p.data, joinL_preSegsL p.data, nonLastAll_preSegsL p.data,
   rfl, rfl⟩

/-- Witness for C9 on the concrete path `$.a[*].b`, whose segments are
`$.a[*]` and `$.b`. -/
theorem splitQuery_splits_and_normalizes_witness :
    (['$', '.', 'a', '[', '*', ']'] : List Char).head? = some '$'
    ∧ joinL (preSegsL ("$.a[*].b".data)) = "$.a[*].b".data :=
  ⟨(splitQuery_splits_and_normalizes "$.a[*].b").1
      ['$', '.', 'a', '[', '*', ']'] (by decide),
   (splitQuery_splits_and_normalizes "$.a[*].b").2.1⟩
